import Mathlib

/-!
# Verification of the `node-dijkstra` shortest-path library

Shallow embedding of `src/dist/dijkstra.js` (the `Graph` class, its
`PriorityQueue` and the `populateMap`/`validateNode` input pipeline),
with theorems settling the specification claims.

Modelling conventions:
* JS `Map`s are association lists (`List (String × α)`); `Map.get` is
  lookup of the first matching key, `Map.set` overwrites in place or
  appends, exactly as insertion-ordered JS maps behave.
* JS `Set`s are lists queried with `contains`; `Set.add` is a no-op on
  a present element.
* JS numbers are modelled as `Int`: the only numeric operations the
  algorithm performs are addition and order comparison, which are exact
  on integers.  (`NaN` only matters in the input-validation layer,
  where it is modelled explicitly.)
* Exceptions are `Except` values; code that cannot throw is total.
-/

namespace Dijkstra

/-! ## Definitions: the embedded data model and operations -/

/-- `Map.get`: value of the first entry with the given key (JS maps have
unique keys; on arbitrary lists we take the first match, like `find`). -/
def mget {α : Type} (m : List (String × α)) (k : String) : Option α :=
  (m.find? (fun e => e.1 = k)).map (fun e => e.2)

/-- `Map.has`. -/
def mhas {α : Type} (m : List (String × α)) (k : String) : Bool :=
  (mget m k).isSome

/-- `Map.set`: overwrite the entry in place when the key is present,
append a fresh entry otherwise (JS insertion-order semantics). -/
def mset {α : Type} (m : List (String × α)) (k : String) (v : α) :
    List (String × α) :=
  if mhas m k then m.map (fun e => if e.1 = k then (k, v) else e)
  else m ++ [(k, v)]

/-- `Set.add`: add an element unless it is already present. -/
def sadd (s : List String) (k : String) : List String :=
  if s.contains k then s else k :: s

/-- Queue entries are `{key, priority}` records. -/
structure PQ where
  keys : List String
  queue : List (String × Int)
  deriving DecidableEq

/-- Insert one entry into a priority-sorted list, after any entry of equal
priority (so the overall sort is stable, as JS `Array#sort` is). -/
def pqInsert (e : String × Int) : List (String × Int) → List (String × Int)
  | [] => [e]
  | f :: rest => if e.2 < f.2 then e :: f :: rest else f :: pqInsert e rest

/-- `PriorityQueue#_sort`: sort the queue by ascending priority. -/
def pqSort (l : List (String × Int)) : List (String × Int) :=
  l.foldr pqInsert []

def PQ.empty : PQ := ⟨[], []⟩

/-- `PriorityQueue#set`.  The JS code first coerces `priority` with
`Number` and throws on `NaN`; the priorities the driver passes are sums
of numeric costs (here `Int`), so that check cannot fire. -/
def PQ.set (pq : PQ) (k : String) (p : Int) : PQ :=
  if pq.keys.contains k then
    { pq with
      queue := pqSort (pq.queue.map (fun e => if e.1 = k then (e.1, p) else e)) }
  else
    { keys := pq.keys ++ [k], queue := pqSort (pq.queue ++ [(k, p)]) }

/-- `PriorityQueue#next`: dequeue the head entry and drop its key.
`none` corresponds to the `undefined` dereference on an empty queue,
which the driver's `isEmpty` guard makes unreachable. -/
def PQ.next? (pq : PQ) : Option ((String × Int) × PQ) :=
  match pq.queue with
  | [] => none
  | e :: rest => some (e, ⟨pq.keys.erase e.1, rest⟩)

/-- `PriorityQueue#isEmpty`. -/
def PQ.isEmpty (pq : PQ) : Bool := pq.queue.length == 0

/-- `PriorityQueue#has`. -/
def PQ.has (pq : PQ) (k : String) : Bool := pq.keys.contains k

/-- `PriorityQueue#get`. -/
def PQ.get (pq : PQ) (k : String) : Option (String × Int) :=
  pq.queue.find? (fun e => e.1 = k)

/-- The adjacency `Map`: node name to neighbour map of edge costs. -/
abbrev GraphL := List (String × List (String × Int))

/-- `this.graph.get(node.key) || new Map()`. -/
def nbrsL (g : GraphL) (k : String) : List (String × Int) :=
  (mget g k).getD []

/-- The recognised `options` object: the driver only reads the
truthiness of `trim`, `reverse` and `cost`. -/
structure Opts where
  trim : Bool
  reverse : Bool
  cost : Bool
  deriving DecidableEq

/-- Return value of `Graph#path`: `null`, a plain array, or the
`{path, cost}` record when `options.cost` is set. -/
inductive JSResult where
  | nullRes
  | seq (l : List String)
  | withCost (p : Option (List String)) (c : Int)
  deriving DecidableEq

/-- Body of the `neighbors.forEach` relaxation callback, acting on the
frontier/previous pair. -/
def relaxStep (explored : List String) (nodeKey : String) (nodeP : Int)
    (st : PQ × List (String × String)) (nb : String × Int) :
    PQ × List (String × String) :=
  if explored.contains nb.1 then st
  else if st.1.has nb.1 then
    match st.1.get nb.1 with
    | some fe =>
        if nodeP + nb.2 < fe.2 then
          (st.1.set nb.1 (nodeP + nb.2), mset st.2 nb.1 nodeKey)
        else st
    | none => st
  else
    (st.1.set nb.1 (nodeP + nb.2), mset st.2 nb.1 nodeKey)

/-- `neighbors.forEach(...)`: relax every outgoing edge of the node just
dequeued. -/
def relax (explored : List String) (nodeKey : String) (nodeP : Int)
    (nbrs : List (String × Int)) (pq : PQ) (prev : List (String × String)) :
    PQ × List (String × String) :=
  nbrs.foldl (relaxStep explored nodeKey nodeP) (pq, prev)

/-- The back-pointer walk `while (previous.has(nodeKey))`, with explicit
fuel; the driver passes `previous` size as fuel, which the search
invariant proves sufficient. -/
def reconstructF (prev : List (String × String)) : Nat → String → List String
  | 0, _ => []
  | n+1, k =>
    match mget prev k with
    | none => []
    | some k' => k :: reconstructF prev n k'

inductive LoopOut where
  | found (raw : List String) (cost : Int)
  | exhausted
  | fuelOut
  deriving DecidableEq

/-- The `while (!frontier.isEmpty())` relaxation loop, with explicit
fuel (`fuelOut` is proved unreachable for the fuel `path` supplies). -/
def dloop (g : GraphL) (goal : String) :
    Nat → PQ → List String → List (String × String) → LoopOut
  | 0, pq, _, _ => if pq.isEmpty then .exhausted else .fuelOut
  | n+1, pq, explored, prev =>
    match pq.next? with
    | none => .exhausted
    | some ((k, p), pq') =>
      if k = goal then .found (reconstructF prev prev.length k) p
      else
        dloop g goal n (relax (sadd explored k) k p (nbrsL g k) pq' prev).1
          (sadd explored k) (relax (sadd explored k) k p (nbrsL g k) pq' prev).2

/-- Every node name the search can ever touch: the start node, the
graph's keys, and every neighbour key. -/
def univList (g : GraphL) (s : String) : List String :=
  s :: g.flatMap (fun e => e.1 :: e.2.map Prod.fst)

/-- Fuel that the termination argument shows is enough for `dloop`. -/
def pathFuel (g : GraphL) (s : String) : Nat :=
  (univList g s).dedup.length + 1

/-- `frontier.set(start, 0)` on a fresh queue. -/
def initPQ (s : String) : PQ := PQ.empty.set s 0

/-- The search part of `Graph#path`: `none` when the loop exhausts the
frontier or the reconstructed raw path is empty (the `!path.length`
check), otherwise the raw goal-to-start path and the total cost. -/
def runSearch (g : GraphL) (s t : String) : Option (List String × Int) :=
  match dloop g t (pathFuel g s) (initPQ s) [] [] with
  | .found raw c => if raw.isEmpty then none else some (raw, c)
  | _ => none

/-- `Graph#path(start, goal, options)`. -/
def path (g : GraphL) (start goal : String) (o : Opts) : JSResult :=
  if g.isEmpty then
    (if o.cost then .withCost none 0 else .nullRes)
  else
    match runSearch g start goal with
    | none => if o.cost then .withCost none 0 else .nullRes
    | some (raw, c) =>
      let p1 := if o.trim then raw.tail else raw ++ [start]
      let p2 := if o.reverse then p1 else p1.reverse
      if o.cost then .withCost (some p2) c else .seq p2

/-- `Graph#shortestPath`: deprecated alias.  Its body logs a deprecation
notice to the console (an effect on the console, not on the graph) and
then delegates every argument to `path`. -/
def shortestPath (g : GraphL) (start goal : String) (o : Opts) : JSResult :=
  path g start goal o

/-- Well-formedness of the frontier: its key set is deduplicated and
coincides with the keys of the queue entries, which are pairwise
distinct — "at most one entry per node". -/
def PQ.wf (pq : PQ) : Prop :=
  pq.keys.Nodup ∧ (pq.queue.map Prod.fst).Nodup ∧
  (∀ k ∈ pq.keys, k ∈ pq.queue.map Prod.fst) ∧
  (∀ k ∈ pq.queue.map Prod.fst, k ∈ pq.keys)

instance (pq : PQ) : Decidable pq.wf := by
  unfold PQ.wf
  infer_instance

/-- `PathTo g prev s k p l`: walking the back-pointers from `k` reaches
`s`, yields the (goal-to-origin ordered, origin-excluded) node list `l`,
every hop is an edge of the graph, and the edge costs sum to `p`. -/
inductive PathTo (g : GraphL) (prev : List (String × String)) (s : String) :
    String → Int → List String → Prop
  | base : mget prev s = none → PathTo g prev s s 0 []
  | step (k k' : String) (p c : Int) (l : List String) :
      mget prev k = some k' → (k, c) ∈ nbrsL g k' →
      PathTo g prev s k' p l → PathTo g prev s k (p + c) (k :: l)

/-- One directed edge of the adjacency map. -/
def estep (g : GraphL) (a b : String) : Prop := ∃ c, (b, c) ∈ nbrsL g a

/-- Reachability along directed edges. -/
def Reach (g : GraphL) (s t : String) : Prop :=
  Relation.ReflTransGen (estep g) s t

/-- Keys of every neighbour map are duplicate-free: automatically true
for graphs built from JS `Map`s, stated explicitly for the list model. -/
def wfG (g : GraphL) : Prop := ∀ e ∈ g, ((e.2).map Prod.fst).Nodup

instance (g : GraphL) : Decidable (wfG g) := by
  unfold wfG
  infer_instance

/-- All edge costs of the graph are non-negative. -/
def nonnegG (g : GraphL) : Prop := ∀ e ∈ g, ∀ nb ∈ e.2, 0 ≤ nb.2

instance (g : GraphL) : Decidable (nonnegG g) := by
  unfold nonnegG
  infer_instance

/-- Sum the edge costs along a node sequence: `none` as soon as one
consecutive pair is not an edge of the graph. -/
def pathCostSum (g : GraphL) : List String → Option Int
  | [] => some 0
  | [_] => some 0
  | a :: b :: r =>
    match mget (nbrsL g a) b with
    | none => none
    | some c =>
      match pathCostSum g (b :: r) with
      | none => none
      | some rest => some (c + rest)

/-- Invariant of the relaxation loop, tied together by the chain
property: every frontier entry records the cost of an actual
back-pointer chain of graph edges from the origin. -/
structure SInv (g : GraphL) (s : String) (pq : PQ) (explored : List String)
    (prev : List (String × String)) : Prop where
  wf : pq.wf
  prevStart : mget prev s = none
  chains : ∀ e ∈ pq.queue, ∃ l, PathTo g prev s e.1 e.2 l ∧ l.Nodup ∧
    ∀ x ∈ l.tail, x ∈ explored
  notExplored : ∀ e ∈ pq.queue, e.1 ∉ explored
  startMem : s ∈ explored ∨ (explored = [] ∧ prev = [] ∧ pq = initPQ s)
  exploredNd : explored.Nodup
  exploredSub : ∀ x ∈ explored, x ∈ univList g s
  queueSub : ∀ e ∈ pq.queue, e.1 ∈ univList g s

/-- Invariant threaded through the `forEach` relaxation of one node's
neighbours (`explored` here already contains the dequeued node). -/
structure RInv (g : GraphL) (s : String) (explored : List String)
    (nodeKey : String) (nodeP : Int)
    (st : PQ × List (String × String)) : Prop where
  wf : st.1.wf
  prevStart : mget st.2 s = none
  chains : ∀ e ∈ st.1.queue, ∃ l, PathTo g st.2 s e.1 e.2 l ∧ l.Nodup ∧
    ∀ x ∈ l.tail, x ∈ explored
  notExplored : ∀ e ∈ st.1.queue, e.1 ∉ explored
  nodeChain : ∃ l, PathTo g st.2 s nodeKey nodeP l ∧ l.Nodup ∧
    ∀ x ∈ l, x ∈ explored
  startMem : s ∈ explored
  queueSub : ∀ e ∈ st.1.queue, e.1 ∈ univList g s

/-- A JS value as it may appear in a nested neighbours object: a number,
`null` (excluded from recursion by the `value !== null` guard), an
`undefined`-like value whose `Number(...)` coercion is `NaN`, or a
nested object. -/
inductive JSVal where
  | num (n : Int)
  | nullv
  | undef
  | obj (fields : List (String × JSVal))

/-- JS `Number(value)` on the non-object values above: a number is
itself, `null` coerces to `0`, `undefined` to `NaN` (`none`). -/
def toNumber : JSVal → Option Int
  | .num n => some n
  | .nullv => some 0
  | .undef => none
  | .obj _ => none

/-- The two `TypeError`s `validateNode` can throw. -/
inductive CostError where
  | notANumber
  | negative
  deriving DecidableEq

/-- `validateNode(cost)`. -/
def validateNode (v : JSVal) : Except CostError Int :=
  match toNumber v with
  | none => .error .notANumber
  | some c => if c < 0 then .error .negative else .ok c

/-- A value of the populated `Map`: a validated cost or a nested `Map`
(the JS code does not flatten nesting; it builds nested `Map`s). -/
inductive MVal where
  | cost (c : Int)
  | nested (m : List (String × MVal))

mutual
/-- Processing of one value by `populateMap`: recurse on an object,
validate anything else as a cost. -/
def populateVal : JSVal → Except CostError MVal
  | .obj fields => Except.map MVal.nested (populateMapAux [] fields)
  | .num n => Except.map MVal.cost (validateNode (.num n))
  | .nullv => Except.map MVal.cost (validateNode .nullv)
  | .undef => Except.map MVal.cost (validateNode .undef)

/-- `populateMap(map, object, keys)`: fold the keys left to right into
the accumulator map, aborting at the first invalid cost. -/
def populateMapAux (acc : List (String × MVal)) :
    List (String × JSVal) → Except CostError (List (String × MVal))
  | [] => .ok acc
  | (k, v) :: rest => do
    let mv ← populateVal v
    populateMapAux (mset acc k mv) rest
end

/-- `populateMap` as called with a fresh `Map`. -/
def populateMap (fields : List (String × JSVal)) :
    Except CostError (List (String × MVal)) :=
  populateMapAux [] fields

/-- The graph as `addNode` stores it (values may be nested maps). -/
abbrev GraphM := List (String × List (String × MVal))

/-- `Graph#addNode(name, neighbors)`: the neighbour map is built (and
validated) first; a thrown `TypeError` propagates before
`this.graph.set`, so on error the graph is exactly as before. -/
def addNode (g : GraphM) (name : String)
    (neighbors : List (String × JSVal)) : Except CostError GraphM :=
  match populateMap neighbors with
  | .error e => .error e
  | .ok m => .ok (mset g name m)

mutual
/-- A leaf (at any nesting depth) that `validateNode` rejects: negative,
or coercing to `NaN`. -/
def hasBadLeaf : JSVal → Bool
  | .num n => decide (n < 0)
  | .nullv => false
  | .undef => true
  | .obj fields => hasBadLeafL fields

def hasBadLeafL : List (String × JSVal) → Bool
  | [] => false
  | (_, v) :: rest => hasBadLeaf v || hasBadLeafL rest
end

/-- Shapes the `options` argument may take at the call boundary.  The
code never validates it: `options = options || {}` replaces any falsy
value by `{}`, and the three flags are then read by truthiness. -/
inductive OptArg where
  | undef
  | nullv
  | num (n : Int)
  | obj (o : Opts)

/-- `options = options || {}` followed by the truthiness reads of
`options.trim`, `options.reverse` and `options.cost`.  `undefined` and
`null` are falsy and become `{}`; a number either is falsy (`0`) or has
none of the three properties — every flag reads as `undefined`. -/
def readOpts : OptArg → Opts
  | .undef => ⟨false, false, false⟩
  | .nullv => ⟨false, false, false⟩
  | .num _ => ⟨false, false, false⟩
  | .obj o => o

/-- `Graph#path` as invoked on a raw `options` argument. -/
def pathRaw (g : GraphL) (s t : String) (a : OptArg) : JSResult :=
  path g s t (readOpts a)

/-- `JSResult` with the contained node sequence reversed. -/
def JSResult.reversePath : JSResult → JSResult
  | .nullRes => .nullRes
  | .seq l => .seq l.reverse
  | .withCost p c => .withCost (p.map List.reverse) c

/-- The README's example graph `{A:{B:1,C:4}, B:{C:1}, C:{}}`. -/
def exampleGraph : GraphL :=
  [("A", [("B", 1), ("C", 4)]), ("B", [("C", 1)]), ("C", [])]

/-- A graph with a node `D` disconnected from `A` and `B`. -/
def discGraph : GraphL :=
  [("A", [("B", 1)]), ("B", []), ("D", [])]

/-! ## Theorems -/

theorem mget_mset {α : Type} (m : List (String × α)) (k k' : String) (v : α) :
    mget (mset m k v) k' = if k' = k then some v else mget m k' := by
  unfold mset
  by_cases hhas : mhas m k
  · simp only [hhas, if_true]
    unfold mget
    rw [List.find?_map]
    have hcomp : ((fun e : String × α => decide (e.1 = k')) ∘
        fun e : String × α => if e.1 = k then (k, v) else e)
        = fun e : String × α => decide (e.1 = k') := by
      funext e
      by_cases h : e.1 = k <;> simp [h]
    rw [hcomp]
    by_cases hk : k' = k
    · subst hk
      have hsome : (List.find? (fun e : String × α => decide (e.1 = k')) m).isSome := by
        simpa [mhas, mget] using hhas
      obtain ⟨e, he⟩ := Option.isSome_iff_exists.mp hsome
      have hpe : e.1 = k' := by simpa using List.find?_some he
      simp [he, hpe]
    · rcases hfind : List.find? (fun e : String × α => decide (e.1 = k')) m with _ | e
      · simp [hfind, mget, hk]
      · have hpe : e.1 = k' := by simpa using List.find?_some hfind
        have hne : e.1 ≠ k := fun hc => hk (hpe ▸ hc ▸ rfl)
        simp [hfind, mget, hne, hk]
  · rw [if_neg hhas]
    unfold mget
    rw [List.find?_append]
    by_cases hk : k' = k
    · subst hk
      have hnone : List.find? (fun e : String × α => decide (e.1 = k')) m = none := by
        rcases hfind : List.find? (fun e : String × α => decide (e.1 = k')) m with _ | e
        · rfl
        · exact absurd (by simp [mhas, mget, hfind]) hhas
      simp [hnone, List.find?]
    · have hone : List.find? (fun e : String × α => decide (e.1 = k')) [(k, v)] = none := by
        simp [List.find?_cons_of_neg, hk]
        intro hc
        exact hk hc.symm
      simp [hone, mget, hk]

theorem mem_keys_of_mget_isSome {α : Type} {m : List (String × α)}
    {k : String} (h : (mget m k).isSome) : k ∈ m.map Prod.fst := by
  have hs : (List.find? (fun e : String × α => decide (e.1 = k)) m).isSome := by
    simpa [mget] using h
  obtain ⟨x, hx, hpx⟩ := List.find?_isSome.mp hs
  have hxk : x.1 = k := by simpa using hpx
  exact hxk ▸ List.mem_map_of_mem Prod.fst hx

theorem mget_eq_some_mem {α : Type} {m : List (String × α)} {k : String}
    {v : α} (h : mget m k = some v) : (k, v) ∈ m := by
  unfold mget at h
  rcases hfind : List.find? (fun e : String × α => decide (e.1 = k)) m with _ | e
  · rw [hfind] at h
    simp at h
  · rw [hfind] at h
    have h1 : e.1 = k := by simpa using List.find?_some hfind
    have h2 : e.2 = v := by simpa using h
    have hev : e = (k, v) := Prod.ext h1 h2
    exact hev ▸ List.mem_of_find?_eq_some hfind

/-- On a list whose keys are distinct, lookup of a present pair succeeds. -/
theorem mget_of_mem_nodup {α : Type} {m : List (String × α)} {k : String}
    {v : α} (hnd : (m.map Prod.fst).Nodup) (hm : (k, v) ∈ m) :
    mget m k = some v := by
  induction m with
  | nil => simp at hm
  | cons e rest ih =>
      simp only [List.map_cons, List.nodup_cons] at hnd
      rcases List.mem_cons.mp hm with hm1 | hm2
      · rw [← hm1] at hnd ⊢
        simp [mget, List.find?_cons_of_pos]
      · have hne : ¬((fun x : String × α => decide (x.1 = k)) e = true) := by
          simp only [decide_eq_true_eq]
          intro hc
          exact hnd.1 (hc ▸ List.mem_map_of_mem Prod.fst hm2)
        unfold mget
        have hstep : List.find? (fun x : String × α => decide (x.1 = k)) (e :: rest)
            = List.find? (fun x : String × α => decide (x.1 = k)) rest :=
          List.find?_cons_of_neg _ hne
        rw [hstep]
        exact ih hnd.2 hm2

theorem pqInsert_perm (e : String × Int) (l : List (String × Int)) :
    (pqInsert e l).Perm (e :: l) := by
  induction l with
  | nil => exact List.Perm.refl _
  | cons f rest ih =>
      unfold pqInsert
      by_cases h : e.2 < f.2
      · rw [if_pos h]
      · rw [if_neg h]
        exact ((ih.cons f).trans (List.Perm.swap e f rest))

theorem pqSort_perm (l : List (String × Int)) : (pqSort l).Perm l := by
  induction l with
  | nil => exact List.Perm.refl _
  | cons e rest ih =>
      exact (pqInsert_perm e (pqSort rest)).trans (ih.cons e)

/-- The in-place priority update keeps all keys. -/
theorem map_update_keys (l : List (String × Int)) (k : String) (p : Int) :
    (l.map (fun e => if e.1 = k then (e.1, p) else e)).map Prod.fst
      = l.map Prod.fst := by
  rw [List.map_map]
  apply List.map_congr_left
  intro e _
  by_cases h : e.1 = k <;> simp [h]

theorem PQ.has_iff_mem {pq : PQ} (hwf : pq.wf) (k : String) :
    pq.has k = true ↔ k ∈ pq.queue.map Prod.fst := by
  unfold PQ.has
  rw [List.elem_iff]
  exact ⟨fun h => hwf.2.2.1 k h, fun h => hwf.2.2.2 k h⟩

theorem PQ.set_wf {pq : PQ} (hwf : pq.wf) (k : String) (p : Int) :
    (pq.set k p).wf := by
  unfold PQ.set
  by_cases hc : pq.keys.contains k
  · rw [if_pos hc]
    have hperm := (pqSort_perm
      (pq.queue.map (fun e => if e.1 = k then (e.1, p) else e))).map Prod.fst
    rw [map_update_keys] at hperm
    refine ⟨hwf.1, hperm.nodup_iff.mpr hwf.2.1, ?_, ?_⟩
    · intro k' hk'
      exact hperm.mem_iff.mpr (hwf.2.2.1 k' hk')
    · intro k' hk'
      exact hwf.2.2.2 k' (hperm.mem_iff.mp hk')
  · rw [if_neg hc]
    have hknot : k ∉ pq.keys := fun h => hc (List.elem_iff.mpr h)
    have hkq : k ∉ pq.queue.map Prod.fst := fun h => hknot (hwf.2.2.2 k h)
    have hperm := (pqSort_perm (pq.queue ++ [(k, p)])).map Prod.fst
    rw [List.map_append] at hperm
    refine ⟨?_, ?_, ?_, ?_⟩
    · rw [List.nodup_append]
      refine ⟨hwf.1, List.nodup_singleton k, ?_⟩
      intro a ha hb
      simp only [List.mem_singleton] at hb
      exact hknot (hb ▸ ha)
    · rw [hperm.nodup_iff]
      simp only [List.map_cons, List.map_nil]
      rw [List.nodup_append]
      refine ⟨hwf.2.1, List.nodup_singleton k, ?_⟩
      intro a ha hb
      simp only [List.mem_singleton] at hb
      exact hkq (hb ▸ ha)
    · intro k' hk'
      rw [hperm.mem_iff]
      rcases List.mem_append.mp hk' with h | h
      · exact List.mem_append.mpr (Or.inl (hwf.2.2.1 k' h))
      · simp only [List.mem_singleton] at h
        subst h
        simp
    · intro k' hk'
      rw [hperm.mem_iff] at hk'
      rcases List.mem_append.mp hk' with h | h
      · exact List.mem_append.mpr (Or.inl (hwf.2.2.2 k' h))
      · simp only [List.map_cons, List.map_nil, List.mem_singleton] at h
        subst h
        simp
  

theorem PQ.mem_set {pq : PQ} (hwf : pq.wf) {k : String} {p : Int}
    {e : String × Int} (he : e ∈ (pq.set k p).queue) :
    e = (k, p) ∨ (e ∈ pq.queue ∧ e.1 ≠ k) := by
  unfold PQ.set at he
  by_cases hc : pq.keys.contains k
  · rw [if_pos hc] at he
    have := (pqSort_perm _).mem_iff.mp he
    obtain ⟨x, hx, hfx⟩ := List.mem_map.mp this
    by_cases hxk : x.1 = k
    · left
      rw [← hfx]
      simp [hxk]
    · right
      rw [← hfx]
      simp only [hxk, if_false]
      exact ⟨hx, hxk⟩
  · rw [if_neg hc] at he
    have := (pqSort_perm _).mem_iff.mp he
    rcases List.mem_append.mp this with h | h
    · right
      refine ⟨h, fun hek => ?_⟩
      have : k ∈ pq.queue.map Prod.fst := hek ▸ List.mem_map_of_mem Prod.fst h
      exact hc (List.elem_iff.mpr (hwf.2.2.2 k this))
    · left
      simpa using h

theorem PQ.get_spec {pq : PQ} {k : String} {e : String × Int}
    (h : pq.get k = some e) : e ∈ pq.queue ∧ e.1 = k := by
  refine ⟨List.mem_of_find?_eq_some h, ?_⟩
  simpa using List.find?_some h

theorem PQ.next?_spec {pq : PQ} (hwf : pq.wf) {k : String} {p : Int} {pq' : PQ}
    (h : pq.next? = some ((k, p), pq')) :
    (k, p) ∈ pq.queue ∧ pq'.wf ∧
    (∀ e ∈ pq'.queue, e ∈ pq.queue ∧ e.1 ≠ k) := by
  obtain ⟨ks, qu⟩ := pq
  unfold PQ.next? at h
  unfold PQ.wf at hwf
  rcases qu with _ | ⟨f, rest⟩
  · simp at h
  · simp only at h
    have h' := Option.some.inj h
    have hf : f = (k, p) := congrArg Prod.fst h'
    have hpq' : pq' = ⟨ks.erase f.1, rest⟩ := (congrArg Prod.snd h').symm
    subst hf
    subst hpq'
    obtain ⟨hknd, hqnd, h34, h43⟩ := hwf
    simp only [List.map_cons, List.nodup_cons] at hqnd
    refine ⟨List.mem_cons_self _ _, ⟨?_, hqnd.2, ?_, ?_⟩, ?_⟩
    · exact hknd.erase _
    · intro k' hk'
      have hk'' := hknd.mem_erase_iff.mp hk'
      have hmem := h34 k' hk''.2
      simp only [List.map_cons, List.mem_cons] at hmem
      rcases hmem with hcase | hcase
      · exact absurd hcase hk''.1
      · exact hcase
    · intro k' hk'
      rw [hknd.mem_erase_iff]
      have hne : k' ≠ (k, p).1 := by
        intro hE
        apply hqnd.1
        have : k' ∈ List.map Prod.fst rest := hk'
        rw [hE] at this
        exact this
      refine ⟨hne, h43 k' ?_⟩
      simp only [List.map_cons, List.mem_cons]
      exact Or.inr hk'
    · intro e he
      exact ⟨List.mem_cons_of_mem _ he,
        fun hek => hqnd.1 (hek ▸ List.mem_map_of_mem Prod.fst he)⟩

theorem PathTo.mem_prev {g : GraphL} {prev : List (String × String)}
    {s k : String} {p : Int} {l : List String} (h : PathTo g prev s k p l) :
    ∀ x ∈ l, (mget prev x).isSome := by
  induction h with
  | base _ =>
      intro x hx
      simp at hx
  | step k k' p c l hprev hedge htail ih =>
      intro x hx
      rcases List.mem_cons.mp hx with hx | hx
      · subst hx
        simp [hprev]
      · exact ih x hx

theorem PathTo.nil_inv {g : GraphL} {prev : List (String × String)}
    {s k : String} {p : Int} (h : PathTo g prev s k p []) :
    k = s ∧ p = 0 := by
  cases h
  exact ⟨rfl, rfl⟩

theorem PathTo.cons_head {g : GraphL} {prev : List (String × String)}
    {s k a : String} {p : Int} {l : List String}
    (h : PathTo g prev s k p (a :: l)) : a = k := by
  cases h
  rfl

/-- Updating a back-pointer of a node outside the chain (and distinct
from the origin) leaves the chain intact. -/
theorem PathTo.preserve_mset {g : GraphL} {prev : List (String × String)}
    {s : String} : ∀ {k : String} {p : Int} {l : List String},
    PathTo g prev s k p l → ∀ (x v : String), x ≠ s → x ∉ l →
    PathTo g (mset prev x v) s k p l := by
  intro k p l h
  induction h with
  | base hb =>
      intro x v hxs _
      refine .base ?_
      rw [mget_mset]
      rw [if_neg (fun hsx => hxs hsx.symm)]
      exact hb
  | step k k' p c l hprev hedge htail ih =>
      intro x v hxs hxl
      have hxk : x ≠ k := fun hE => hxl (hE ▸ List.mem_cons_self _ _)
      refine .step k k' p c l ?_ hedge
        (ih x v hxs (fun hx => hxl (List.mem_cons_of_mem _ hx)))
      rw [mget_mset, if_neg (fun hE : k = x => hxk hE.symm)]
      exact hprev

/-- The fuelled back-pointer walk reproduces the chain once the fuel
covers its length. -/
theorem reconstructF_eq {g : GraphL} {prev : List (String × String)}
    {s : String} : ∀ {k : String} {p : Int} {l : List String},
    PathTo g prev s k p l → ∀ n, l.length ≤ n → reconstructF prev n k = l := by
  intro k p l h
  induction h with
  | base hb =>
      intro n _
      cases n with
      | zero => rfl
      | succ m => simp [reconstructF, hb]
  | step k k' p c l hprev hedge htail ih =>
      intro n hn
      cases n with
      | zero => simp at hn
      | succ m =>
          simp only [reconstructF, hprev]
          rw [ih m (by simpa using hn)]

/-- A duplicate-free chain cannot be longer than the `previous` map. -/
theorem PathTo.length_le {g : GraphL} {prev : List (String × String)}
    {s k : String} {p : Int} {l : List String} (h : PathTo g prev s k p l)
    (hnd : l.Nodup) : l.length ≤ prev.length := by
  have hsub : l.toFinset ⊆ (prev.map Prod.fst).toFinset := by
    intro a ha
    rw [List.mem_toFinset] at ha ⊢
    exact mem_keys_of_mget_isSome (h.mem_prev a ha)
  calc l.length = l.toFinset.card := (List.toFinset_card_of_nodup hnd).symm
    _ ≤ (prev.map Prod.fst).toFinset.card := Finset.card_le_card hsub
    _ ≤ (prev.map Prod.fst).length := List.toFinset_card_le _
    _ = prev.length := by simp

theorem PathTo.reach {g : GraphL} {prev : List (String × String)}
    {s k : String} {p : Int} {l : List String} (h : PathTo g prev s k p l) :
    Reach g s k := by
  induction h with
  | base _ => exact Relation.ReflTransGen.refl
  | step k k' p c l hprev hedge htail ih => exact ih.tail ⟨c, hedge⟩

/-- A set of nodes containing the origin and closed under outgoing edges
contains everything reachable from the origin. -/
theorem reach_closed (g : GraphL) (S : List String) (s t : String)
    (hs : s ∈ S) (hcl : ∀ a ∈ S, ∀ nb ∈ nbrsL g a, nb.1 ∈ S)
    (hr : Reach g s t) : t ∈ S := by
  induction hr with
  | refl => exact hs
  | tail hab hbt ih =>
      obtain ⟨c, hmem⟩ := hbt
      exact hcl _ ih _ hmem

theorem mem_sadd {ex : List String} {k x : String} :
    x ∈ sadd ex k ↔ x = k ∨ x ∈ ex := by
  unfold sadd
  by_cases h : ex.contains k
  · rw [if_pos h]
    constructor
    · exact Or.inr
    · rintro (rfl | hx)
      · exact List.elem_iff.mp h
      · exact hx
  · rw [if_neg h]
    exact List.mem_cons

theorem sadd_nodup {ex : List String} {k : String} (h : ex.Nodup) :
    (sadd ex k).Nodup := by
  unfold sadd
  by_cases hc : ex.contains k
  · rw [if_pos hc]
    exact h
  · rw [if_neg hc]
    exact List.nodup_cons.mpr ⟨fun hm => hc (List.elem_iff.mpr hm), h⟩

theorem sadd_eq_cons {ex : List String} {k : String} (h : k ∉ ex) :
    sadd ex k = k :: ex := by
  unfold sadd
  rw [if_neg (fun hc => h (List.elem_iff.mp hc))]

/-- Every neighbour key occurring in the graph is in the node universe. -/
theorem nbrs_mem_univ {g : GraphL} {x : String} {nb : String × Int}
    (h : nb ∈ nbrsL g x) (s : String) : nb.1 ∈ univList g s := by
  unfold nbrsL at h
  rcases hg : mget g x with _ | nbrs
  · rw [hg] at h
    simp at h
  · rw [hg] at h
    simp only [Option.getD_some] at h
    have hmem := mget_eq_some_mem hg
    unfold univList
    simp only [List.mem_cons, List.mem_flatMap]
    exact Or.inr ⟨(x, nbrs), hmem,
      Or.inr (List.mem_map_of_mem Prod.fst h)⟩

theorem edge_mget {g : GraphL} (hwf : wfG g) {a b : String} {c : Int}
    (h : (b, c) ∈ nbrsL g a) : mget (nbrsL g a) b = some c := by
  unfold nbrsL at h ⊢
  rcases hg : mget g a with _ | nbrs
  · rw [hg] at h
    simp at h
  · rw [hg] at h
    simp only [Option.getD_some] at h ⊢
    exact mget_of_mem_nodup (hwf _ (mget_eq_some_mem hg)) h

/-- A back-pointer chain, reversed behind the origin, sums to its
recorded priority: proved with an arbitrary continuation so the
induction goes through. -/
theorem pathTo_costSum {g : GraphL} {prev : List (String × String)}
    {s : String} (hwf : wfG g) : ∀ {k : String} {p : Int} {l : List String},
    PathTo g prev s k p l → ∀ (rest : List String) (res : Int),
    pathCostSum g (k :: rest) = some res →
    pathCostSum g (s :: (l.reverse ++ rest)) = some (p + res) := by
  intro k p l h
  induction h with
  | base _ =>
      intro rest res hres
      simp only [List.reverse_nil, List.nil_append]
      rw [hres, zero_add]
  | step k k' p c l hprev hedge htail ih =>
      intro rest res hres
      have hmid : pathCostSum g (k' :: (k :: rest)) = some (c + res) := by
        simp only [pathCostSum, edge_mget hwf hedge, hres]
      have hih := ih (k :: rest) (c + res) hmid
      have hshape : (k :: l).reverse ++ rest = l.reverse ++ (k :: rest) := by
        simp [List.reverse_cons, List.append_assoc]
      rw [hshape, hih, add_assoc]

theorem initPQ_queue (s : String) : (initPQ s).queue = [(s, 0)] := rfl

theorem initPQ_keys (s : String) : (initPQ s).keys = [s] := rfl

/-- A relaxation step either leaves the state alone or, for a
not-yet-explored neighbour, writes the new priority and back-pointer. -/
theorem relaxStep_cases (explored : List String) (nodeKey : String)
    (nodeP : Int) (st : PQ × List (String × String)) (nb : String × Int) :
    relaxStep explored nodeKey nodeP st nb = st ∨
    (nb.1 ∉ explored ∧
      relaxStep explored nodeKey nodeP st nb
        = (st.1.set nb.1 (nodeP + nb.2), mset st.2 nb.1 nodeKey)) := by
  unfold relaxStep
  by_cases h1 : explored.contains nb.1
  · rw [if_pos h1]
    exact Or.inl rfl
  · rw [if_neg h1]
    have hne : nb.1 ∉ explored := fun hm => h1 (List.elem_iff.mpr hm)
    by_cases h2 : st.1.has nb.1
    · rw [if_pos h2]
      rcases hget : st.1.get nb.1 with _ | fe
      · exact Or.inl rfl
      · by_cases h3 : nodeP + nb.2 < fe.2
        · refine Or.inr ⟨hne, ?_⟩
          show (if nodeP + nb.2 < fe.2
            then (st.1.set nb.1 (nodeP + nb.2), mset st.2 nb.1 nodeKey)
            else st) = _
          rw [if_pos h3]
        · refine Or.inl ?_
          show (if nodeP + nb.2 < fe.2
            then (st.1.set nb.1 (nodeP + nb.2), mset st.2 nb.1 nodeKey)
            else st) = st
          rw [if_neg h3]
    · rw [if_neg h2]
      exact Or.inr ⟨hne, rfl⟩

theorem relaxStep_preserves {g : GraphL} {s : String} {explored : List String}
    {nodeKey : String} {nodeP : Int} {st : PQ × List (String × String)}
    {nb : String × Int} (hnb : nb ∈ nbrsL g nodeKey)
    (hinv : RInv g s explored nodeKey nodeP st) :
    RInv g s explored nodeKey nodeP (relaxStep explored nodeKey nodeP st nb) := by
  rcases relaxStep_cases explored nodeKey nodeP st nb with heq | ⟨hnbE, heq⟩
  · rw [heq]
    exact hinv
  · rw [heq]
    obtain ⟨hwf, hps, hch, hne, ⟨l₀, hl₀, hl₀nd, hl₀ex⟩, hsm, hqs⟩ := hinv
    have hnbs : nb.1 ≠ s := fun hE => hnbE (hE ▸ hsm)
    have hnbl₀ : nb.1 ∉ l₀ := fun hm => hnbE (hl₀ex _ hm)
    have hl₀' : PathTo g (mset st.2 nb.1 nodeKey) s nodeKey nodeP l₀ :=
      hl₀.preserve_mset nb.1 nodeKey hnbs hnbl₀
    have hget1 : mget (mset st.2 nb.1 nodeKey) nb.1 = some nodeKey := by
      rw [mget_mset, if_pos rfl]
    constructor
    · exact PQ.set_wf hwf nb.1 (nodeP + nb.2)
    · rw [mget_mset, if_neg (fun hE : s = nb.1 => hnbs hE.symm)]
      exact hps
    · intro e he
      rcases PQ.mem_set hwf he with hE | ⟨hmem, hne1⟩
      · subst hE
        refine ⟨nb.1 :: l₀, ?_, ?_, ?_⟩
        · exact PathTo.step nb.1 nodeKey nodeP nb.2 l₀ hget1 hnb hl₀'
        · exact List.nodup_cons.mpr ⟨hnbl₀, hl₀nd⟩
        · exact hl₀ex
      · obtain ⟨l, hPT, hnd, htail⟩ := hch e hmem
        have hnbl : nb.1 ∉ l := by
          intro hm
          rcases l with _ | ⟨a, tl⟩
          · simp at hm
          · rcases List.mem_cons.mp hm with hE | hE
            · exact hne1 ((hE ▸ hPT.cons_head : nb.1 = e.1)).symm
            · exact hnbE (htail _ hE)
        exact ⟨l, hPT.preserve_mset nb.1 nodeKey hnbs hnbl, hnd, htail⟩
    · intro e he
      rcases PQ.mem_set hwf he with hE | ⟨hmem, _⟩
      · subst hE
        exact hnbE
      · exact hne e hmem
    · exact ⟨l₀, hl₀', hl₀nd, hl₀ex⟩
    · exact hsm
    · intro e he
      rcases PQ.mem_set hwf he with hE | ⟨hmem, _⟩
      · subst hE
        exact nbrs_mem_univ hnb s
      · exact hqs e hmem

theorem relax_preserves {g : GraphL} {s : String} {explored : List String}
    {nodeKey : String} {nodeP : Int} :
    ∀ (nbrs : List (String × Int)) (st : PQ × List (String × String)),
    (∀ nb ∈ nbrs, nb ∈ nbrsL g nodeKey) →
    RInv g s explored nodeKey nodeP st →
    RInv g s explored nodeKey nodeP
      (nbrs.foldl (relaxStep explored nodeKey nodeP) st) := by
  intro nbrs
  induction nbrs with
  | nil =>
      intro st _ hinv
      exact hinv
  | cons nb rest ih =>
      intro st hsub hinv
      simp only [List.foldl_cons]
      exact ih _ (fun x hx => hsub x (List.mem_cons_of_mem _ hx))
        (relaxStep_preserves (hsub nb (List.mem_cons_self _ _)) hinv)

theorem SInv_init (g : GraphL) (s : String) : SInv g s (initPQ s) [] [] := by
  constructor
  · refine ⟨?_, ?_, ?_, ?_⟩ <;> simp [initPQ_keys, initPQ_queue]
  · rfl
  · intro e he
    rw [initPQ_queue] at he
    have hE := List.mem_singleton.mp he
    subst hE
    exact ⟨[], PathTo.base rfl, List.nodup_nil, by simp⟩
  · intro e _
    simp
  · exact Or.inr ⟨rfl, rfl, rfl⟩
  · exact List.nodup_nil
  · intro x hx
    simp at hx
  · intro e he
    rw [initPQ_queue] at he
    have hE := List.mem_singleton.mp he
    subst hE
    simp [univList]

theorem SInv_step {g : GraphL} {s : String} {pq : PQ} {explored : List String}
    {prev : List (String × String)} {k : String} {p : Int} {pq' : PQ}
    (hinv : SInv g s pq explored prev)
    (hnext : pq.next? = some ((k, p), pq')) :
    SInv g s (relax (sadd explored k) k p (nbrsL g k) pq' prev).1
      (sadd explored k)
      (relax (sadd explored k) k p (nbrsL g k) pq' prev).2 := by
  obtain ⟨hkp, hpqwf', hsub'⟩ := PQ.next?_spec hinv.wf hnext
  have hsm : s ∈ sadd explored k := by
    rcases hinv.startMem with hs | ⟨_, _, hpq0⟩
    · exact mem_sadd.mpr (Or.inr hs)
    · have hmem0 : (k, p) ∈ pq.queue := hkp
      rw [hpq0, initPQ_queue] at hmem0
      have hks : k = s := congrArg Prod.fst (List.mem_singleton.mp hmem0)
      exact mem_sadd.mpr (Or.inl hks.symm)
  obtain ⟨l₀, hl₀, hl₀nd, hl₀tail⟩ := hinv.chains (k, p) hkp
  have hl₀mem : ∀ x ∈ l₀, x ∈ sadd explored k := by
    intro x hx
    rcases l₀ with _ | ⟨a, tl⟩
    · simp at hx
    · rcases List.mem_cons.mp hx with hE | hE
      · exact mem_sadd.mpr (Or.inl (hE.trans hl₀.cons_head))
      · exact mem_sadd.mpr (Or.inr (hl₀tail x hE))
  have hrinv : RInv g s (sadd explored k) k p (pq', prev) := by
    constructor
    · exact hpqwf'
    · exact hinv.prevStart
    · intro e he
      obtain ⟨l, hPT, hnd, htail⟩ := hinv.chains e (hsub' e he).1
      exact ⟨l, hPT, hnd, fun x hx => mem_sadd.mpr (Or.inr (htail x hx))⟩
    · intro e he hmem
      rcases mem_sadd.mp hmem with hE | hE
      · exact (hsub' e he).2 hE
      · exact hinv.notExplored e (hsub' e he).1 hE
    · exact ⟨l₀, hl₀, hl₀nd, hl₀mem⟩
    · exact hsm
    · intro e he
      exact hinv.queueSub e (hsub' e he).1
  have hres := relax_preserves (nbrsL g k) (pq', prev) (fun nb h => h) hrinv
  constructor
  · exact hres.wf
  · exact hres.prevStart
  · exact hres.chains
  · exact hres.notExplored
  · exact Or.inl hres.startMem
  · exact sadd_nodup hinv.exploredNd
  · intro x hx
    rcases mem_sadd.mp hx with hE | hE
    · rw [hE]
      exact hinv.queueSub (k, p) hkp
    · exact hinv.exploredSub x hE
  · exact hres.queueSub

theorem dloop_zero (g : GraphL) (goal : String) (pq : PQ)
    (explored : List String) (prev : List (String × String)) :
    dloop g goal 0 pq explored prev
      = if pq.isEmpty then .exhausted else .fuelOut := rfl

theorem dloop_succ (g : GraphL) (goal : String) (n : Nat) (pq : PQ)
    (explored : List String) (prev : List (String × String)) :
    dloop g goal (n + 1) pq explored prev =
      match pq.next? with
      | none => .exhausted
      | some ((k, p), pq') =>
        if k = goal then .found (reconstructF prev prev.length k) p
        else
          dloop g goal n (relax (sadd explored k) k p (nbrsL g k) pq' prev).1
            (sadd explored k)
            (relax (sadd explored k) k p (nbrsL g k) pq' prev).2 := rfl

/-- A successful loop exit hands back exactly a back-pointer chain from
the origin to the goal, whose recorded priority is the returned cost. -/
theorem dloop_found_pathTo (g : GraphL) (s goal : String) :
    ∀ (fuel : Nat) (pq : PQ) (explored : List String)
    (prev : List (String × String)), SInv g s pq explored prev →
    ∀ (raw : List String) (c : Int),
    dloop g goal fuel pq explored prev = .found raw c →
    ∃ prev' l, raw = l ∧ PathTo g prev' s goal c l := by
  intro fuel
  induction fuel with
  | zero =>
      intro pq explored prev _ raw c h
      rw [dloop_zero] at h
      by_cases he : pq.isEmpty <;> simp [he] at h
  | succ n ih =>
      intro pq explored prev hinv raw c h
      rw [dloop_succ] at h
      rcases hnext : pq.next? with _ | ⟨⟨kk, pp⟩, pq'⟩
      · rw [hnext] at h
        exact absurd h (by simp)
      · rw [hnext] at h
        simp only at h
        by_cases hkg : kk = goal
        · rw [if_pos hkg] at h
          obtain ⟨hkp, _, _⟩ := PQ.next?_spec hinv.wf hnext
          obtain ⟨l, hPT, hnd, _⟩ := hinv.chains (kk, pp) hkp
          have hraw : raw = l := by
            injection h with h1a h1b
            rw [← h1a]
            exact reconstructF_eq hPT prev.length (hPT.length_le hnd)
          have hc : c = pp := by
            injection h with h1a h1b
            exact h1b.symm
          refine ⟨prev, l, hraw, ?_⟩
          rw [hc, ← hkg]
          exact hPT
        · rw [if_neg hkg] at h
          exact ih _ _ _ (SInv_step hinv hnext) raw c h

/-- With fuel exceeding the number of never-explored node names, the
loop cannot run out of fuel: every iteration permanently explores a
fresh node. -/
theorem dloop_no_fuelOut (g : GraphL) (s goal : String) :
    ∀ (fuel : Nat) (pq : PQ) (explored : List String)
    (prev : List (String × String)), SInv g s pq explored prev →
    ((univList g s).toFinset \ explored.toFinset).card < fuel →
    dloop g goal fuel pq explored prev ≠ .fuelOut := by
  intro fuel
  induction fuel with
  | zero =>
      intro pq explored prev _ hcard
      exact absurd hcard (Nat.not_lt_zero _)
  | succ n ih =>
      intro pq explored prev hinv hcard h
      rw [dloop_succ] at h
      rcases hnext : pq.next? with _ | ⟨⟨kk, pp⟩, pq'⟩
      · rw [hnext] at h
        exact absurd h (by simp)
      · rw [hnext] at h
        simp only at h
        by_cases hkg : kk = goal
        · rw [if_pos hkg] at h
          exact absurd h (by simp)
        · rw [if_neg hkg] at h
          obtain ⟨hkp, _, _⟩ := PQ.next?_spec hinv.wf hnext
          have hkE : kk ∉ explored := hinv.notExplored (kk, pp) hkp
          have hkU : kk ∈ univList g s := hinv.queueSub (kk, pp) hkp
          have hmem : kk ∈ (univList g s).toFinset \ explored.toFinset := by
            rw [Finset.mem_sdiff, List.mem_toFinset, List.mem_toFinset]
            exact ⟨hkU, fun hc => hkE hc⟩
          have hstep : (univList g s).toFinset \ (sadd explored kk).toFinset
              = ((univList g s).toFinset \ explored.toFinset).erase kk := by
            rw [sadd_eq_cons hkE, List.toFinset_cons, Finset.sdiff_insert]
          have hlt : ((univList g s).toFinset
              \ (sadd explored kk).toFinset).card < n := by
            rw [hstep, Finset.card_erase_of_mem hmem]
            have hpos : 0 < ((univList g s).toFinset
                \ explored.toFinset).card := Finset.card_pos.mpr ⟨kk, hmem⟩
            omega
          exact ih _ _ _ (SInv_step hinv hnext) hlt h

theorem runSearch_some {g : GraphL} {s t : String} {raw : List String}
    {c : Int} (h : runSearch g s t = some (raw, c)) :
    dloop g t (pathFuel g s) (initPQ s) [] [] = .found raw c ∧ raw ≠ [] := by
  unfold runSearch at h
  rcases hdl : dloop g t (pathFuel g s) (initPQ s) [] [] with ⟨raw', c'⟩ | _ | _
  · rw [hdl] at h
    have h' : (if raw'.isEmpty then none else some (raw', c'))
        = some (raw, c) := h
    by_cases hre : raw'.isEmpty
    · rw [if_pos hre] at h'
      exact absurd h' (by simp)
    · rw [if_neg hre] at h'
      have h2 := Option.some.inj h'
      have hr : raw' = raw := congrArg Prod.fst h2
      have hc : c' = c := congrArg Prod.snd h2
      refine ⟨by rw [hr, hc], fun hE => hre ?_⟩
      rw [hr, hE]
      rfl
  · rw [hdl] at h
    exact absurd (h : (none : Option (List String × Int)) = some (raw, c))
      (by simp)
  · rw [hdl] at h
    exact absurd (h : (none : Option (List String × Int)) = some (raw, c))
      (by simp)

theorem countP_le_one_of_nodup_keys (l : List (String × Int)) (k : String)
    (h : (l.map Prod.fst).Nodup) :
    l.countP (fun e => e.1 = k) ≤ 1 := by
  induction l with
  | nil => simp
  | cons e rest ih =>
      simp only [List.map_cons, List.nodup_cons] at h
      rw [List.countP_cons]
      by_cases he : e.1 = k
      · have hz : rest.countP (fun e => decide (e.1 = k)) = 0 := by
          rw [List.countP_eq_zero]
          intro a ha
          simp only [decide_eq_true_eq]
          intro hak
          exact h.1 (by rw [he, ← hak]; exact List.mem_map_of_mem Prod.fst ha)
        simp [hz, he]
      · have hle := ih h.2
        simpa [he] using hle

theorem find?_key_of_mem_nodup {l : List (String × Int)} {k : String} {p : Int}
    (hnd : (l.map Prod.fst).Nodup) (hm : (k, p) ∈ l) :
    l.find? (fun e => e.1 = k) = some (k, p) := by
  induction l with
  | nil => simp at hm
  | cons e rest ih =>
      simp only [List.map_cons, List.nodup_cons] at hnd
      rcases List.mem_cons.mp hm with hE | hE
      · rw [← hE]
        exact List.find?_cons_of_pos _ (by simp)
      · have hne : ¬((fun x : String × Int => decide (x.1 = k)) e = true) := by
          simp only [decide_eq_true_eq]
          intro hc
          exact hnd.1 (hc ▸ List.mem_map_of_mem Prod.fst hE)
        have hstep : List.find? (fun x : String × Int => decide (x.1 = k))
            (e :: rest) = List.find? (fun x : String × Int => decide (x.1 = k))
            rest := List.find?_cons_of_neg _ hne
        rw [hstep]
        exact ih hnd.2 hE

theorem PQ.set_mem_self {pq : PQ} (hwf : pq.wf) (k : String) (p : Int) :
    (k, p) ∈ (pq.set k p).queue := by
  unfold PQ.set
  by_cases hc : pq.keys.contains k
  · rw [if_pos hc]
    refine (pqSort_perm _).mem_iff.mpr ?_
    have hkq : k ∈ pq.queue.map Prod.fst := hwf.2.2.1 k (List.elem_iff.mp hc)
    obtain ⟨e, he, hek⟩ := List.mem_map.mp hkq
    refine List.mem_map.mpr ⟨e, he, ?_⟩
    simp [hek]
  · rw [if_neg hc]
    exact (pqSort_perm _).mem_iff.mpr (List.mem_append.mpr (Or.inr (by simp)))

theorem PQ.get_set_self {pq : PQ} (hwf : pq.wf) (k : String) (p : Int) :
    (pq.set k p).get k = some (k, p) :=
  find?_key_of_mem_nodup (PQ.set_wf hwf k p).2.1 (PQ.set_mem_self hwf k p)

theorem PQ.set_length_of_has {pq : PQ} {k : String} (hc : pq.has k = true)
    (p : Int) : (pq.set k p).queue.length = pq.queue.length := by
  unfold PQ.set
  have hc' : pq.keys.contains k = true := hc
  rw [if_pos hc']
  rw [(pqSort_perm _).length_eq]
  simp

mutual
theorem populateVal_error_of_bad : ∀ (v : JSVal), hasBadLeaf v = true →
    ∃ e, populateVal v = .error e
  | .num n, h => by
      have hn : n < 0 := by simpa [hasBadLeaf] using h
      exact ⟨.negative,
        by simp [populateVal, validateNode, toNumber, if_pos hn, Except.map]⟩
  | .nullv, h => by simp [hasBadLeaf] at h
  | .undef, _ => ⟨.notANumber, rfl⟩
  | .obj fields, h => by
      have hb : hasBadLeafL fields = true := by simpa [hasBadLeaf] using h
      obtain ⟨e, he⟩ := populateMapAux_error_of_bad fields [] hb
      exact ⟨e, by simp [populateVal, he, Except.map]⟩

theorem populateMapAux_error_of_bad : ∀ (l : List (String × JSVal))
    (acc : List (String × MVal)), hasBadLeafL l = true →
    ∃ e, populateMapAux acc l = .error e
  | (k, v) :: rest, acc, h => by
      rcases hpv : populateVal v with e | mv
      · exact ⟨e, by simp only [populateMapAux, hpv]; rfl⟩
      · have hv : hasBadLeaf v = false := by
          by_contra hbv
          obtain ⟨e', he'⟩ := populateVal_error_of_bad v
            (by simpa using hbv)
          rw [hpv] at he'
          cases he'
        have hr : hasBadLeafL rest = true := by
          have h' : (hasBadLeaf v || hasBadLeafL rest) = true := h
          rw [hv] at h'
          simpa using h'
        obtain ⟨e, he⟩ := populateMapAux_error_of_bad rest (mset acc k mv) hr
        exact ⟨e, by simp only [populateMapAux, hpv]; exact he⟩
end

/-- C1: for every well-formed graph with only non-negative edge costs,
when `path(start, goal)` returns a non-null sequence together with a
cost, every consecutive pair of the sequence is a directed edge of the
graph and the edge costs sum to the returned cost — `pathCostSum`
recomputes exactly the returned cost (it is `none` as soon as one pair
is not an edge). -/
theorem C1_path_edges_sum_to_cost (g : GraphL) (s t : String)
    (l : List String) (c : Int) (hwf : wfG g) (hnn : nonnegG g)
    (hres : path g s t ⟨false, false, true⟩ = .withCost (some l) c) :
    pathCostSum g l = some c := by
  unfold path at hres
  by_cases hge : g.isEmpty
  · rw [if_pos hge] at hres
    have h0 : (JSResult.withCost none 0) = .withCost (some l) c := hres
    injection h0 with h1 h2
    exact absurd h1 (by simp)
  · rw [if_neg hge] at hres
    rcases hrs : runSearch g s t with _ | ⟨raw, c₀⟩
    · rw [hrs] at hres
      have h0 : (JSResult.withCost none 0) = .withCost (some l) c := hres
      injection h0 with h1 h2
      exact absurd h1 (by simp)
    · rw [hrs] at hres
      have hres' : JSResult.withCost (some ((raw ++ [s]).reverse)) c₀
          = .withCost (some l) c := hres
      injection hres' with h1 h2
      have hl : l = (raw ++ [s]).reverse := (Option.some.inj h1).symm
      obtain ⟨hdl, _⟩ := runSearch_some hrs
      obtain ⟨prev', l₀, hraw, hPT⟩ :=
        dloop_found_pathTo g s t _ _ _ _ (SInv_init g s) raw c₀ hdl
      have hsum := pathTo_costSum hwf hPT [] 0 rfl
      have hshape : (raw ++ [s]).reverse = s :: raw.reverse := by simp
      rw [hl, hshape, hraw, ← h2]
      simpa using hsum

/-- C1 witness: on the README graph `{A:{B:1,C:4}, B:{C:1}, C:{}}` the
query returns `[A, B, C]` with cost 2, whose edge sum recomputes 2. -/
theorem C1_witness :
    wfG exampleGraph ∧ nonnegG exampleGraph ∧
    path exampleGraph "A" "C" ⟨false, false, true⟩
      = .withCost (some ["A", "B", "C"]) 2 ∧
    pathCostSum exampleGraph ["A", "B", "C"] = some 2 :=
  ⟨by decide, by decide, by decide,
    C1_path_edges_sum_to_cost exampleGraph "A" "C" ["A", "B", "C"] 2
      (by decide) (by decide) (by decide)⟩

/-- C2 counterexample: on the graph `{A:{B:1}, B:{}}`, `path("A","A")`
with `trim=false` returns the null no-path marker — not `[A]`, and not
`[A, A]` — refuting the claim at a concrete input. -/
theorem C2_counterexample :
    path [("A", [("B", 1)]), ("B", [])] "A" "A" ⟨false, false, false⟩
        = .nullRes ∧
    path [("A", [("B", 1)]), ("B", [])] "A" "A" ⟨false, false, false⟩
        ≠ .seq ["A"] ∧
    path [("A", [("B", 1)]), ("B", [])] "A" "A" ⟨false, false, false⟩
        ≠ .seq ["A", "A"] :=
  ⟨by decide, by decide, by decide⟩

/-- C2 amended: for every graph and every options object,
`path(start, start)` returns the no-path marker (`{path: null, cost: 0}`
when the cost option is requested): the start node is dequeued first,
it equals the goal, the back-pointer map is still empty, so the
reconstructed path is empty and the `!path.length` check reports
"no path found". -/
theorem C2_path_self_returns_null (g : GraphL) (s : String) (o : Opts) :
    path g s s o = if o.cost then .withCost none 0 else .nullRes := by
  unfold path
  by_cases hge : g.isEmpty
  · rw [if_pos hge]
  · rw [if_neg hge]
    have hrs : runSearch g s s = none := by
      unfold runSearch
      have hdl : dloop g s (pathFuel g s) (initPQ s) [] [] = .found [] 0 := by
        have hfu : pathFuel g s = (univList g s).dedup.length + 1 := rfl
        rw [hfu, dloop_succ]
        have hn : (initPQ s).next? = some ((s, 0), ⟨[s].erase s, []⟩) := rfl
        rw [hn]
        simp [reconstructF]
      rw [hdl]
      rfl
    rw [hrs]

/-- C3: whenever the untrimmed, unreversed query finds a route, the same
query with `trim=true` returns the route with both endpoints dropped:
its length is exactly two less. -/
theorem C3_trim_drops_both_endpoints (g : GraphL) (s t : String)
    (l : List String)
    (hres : path g s t ⟨false, false, false⟩ = .seq l) :
    ∃ l', path g s t ⟨true, false, false⟩ = .seq l' ∧
      l'.length + 2 = l.length := by
  unfold path at hres ⊢
  by_cases hge : g.isEmpty
  · rw [if_pos hge] at hres
    exact absurd (hres : JSResult.nullRes = .seq l) (by simp)
  · rw [if_neg hge] at hres ⊢
    rcases hrs : runSearch g s t with _ | ⟨raw, c₀⟩
    · rw [hrs] at hres
      exact absurd (hres : JSResult.nullRes = .seq l) (by simp)
    · rw [hrs] at hres
      have hres' : JSResult.seq ((raw ++ [s]).reverse) = .seq l := hres
      injection hres' with h1
      obtain ⟨_, hne⟩ := runSearch_some hrs
      rcases raw with _ | ⟨a, r⟩
      · exact absurd rfl hne
      · refine ⟨r.reverse, rfl, ?_⟩
        rw [← h1]
        simp

/-- C3 witness: on the README graph, the untrimmed route is `[A, B, C]`
(length 3) and the trimmed one has length 1 (`[B]`). -/
theorem C3_witness :
    path exampleGraph "A" "C" ⟨false, false, false⟩ = .seq ["A", "B", "C"] ∧
    ∃ l', path exampleGraph "A" "C" ⟨true, false, false⟩ = .seq l' ∧
      l'.length + 2 = 3 :=
  ⟨by decide, by
    have h := C3_trim_drops_both_endpoints exampleGraph "A" "C"
      ["A", "B", "C"] (by decide)
    simpa using h⟩

/-- C4: on an empty graph, and whenever no route exists from start to
goal, `path` returns the no-path marker (`{path: null, cost: 0}` with
the cost option) through its normal return value; the embedding is a
total function, so no error is possible in these cases. -/
theorem C4_no_route_returns_null (g : GraphL) (s t : String) (o : Opts)
    (h : g = [] ∨ ¬ Reach g s t) :
    path g s t o = if o.cost then .withCost none 0 else .nullRes := by
  unfold path
  by_cases hge : g.isEmpty
  · rw [if_pos hge]
  · rw [if_neg hge]
    rcases h with hg | hnr
    · rw [hg] at hge
      exact absurd rfl hge
    · have hrs : runSearch g s t = none := by
        unfold runSearch
        rcases hdl : dloop g t (pathFuel g s) (initPQ s) [] []
          with ⟨raw, c⟩ | _ | _
        · exfalso
          obtain ⟨prev', l, _, hPT⟩ :=
            dloop_found_pathTo g s t _ _ _ _ (SInv_init g s) raw c hdl
          exact hnr hPT.reach
        · rfl
        · rfl
      rw [hrs]

/-- C4 witness: `D` is unreachable from `A` in `{A:{B:1}, B:{}, D:{}}`,
and the query returns `{path: null, cost: 0}`. -/
theorem C4_witness :
    (discGraph = [] ∨ ¬ Reach discGraph "A" "D") ∧
    path discGraph "A" "D" ⟨false, false, true⟩ = .withCost none 0 := by
  have hnr : ¬ Reach discGraph "A" "D" := by
    intro hr
    have hD := reach_closed discGraph ["A", "B"] "A" "D"
      (by decide) (by decide) hr
    exact absurd hD (by decide)
  exact ⟨Or.inr hnr,
    C4_no_route_returns_null discGraph "A" "D" ⟨false, false, true⟩
      (Or.inr hnr)⟩

/-- C5: the frontier holds at most one entry per key: `set` preserves
well-formedness, every key occurs in at most one queue entry afterwards,
lookup returns the newly set priority, and when the key was already
present the queue length is unchanged — the entry is overwritten, not
duplicated.  (Well-formedness holds at every point of a query:
`SInv_init`, `SInv_step` and `PQ.next?_spec` thread it through the
whole loop.) -/
theorem C5_frontier_one_entry_per_key (pq : PQ) (k : String) (p : Int)
    (hwf : pq.wf) :
    (pq.set k p).wf ∧
    (∀ k' : String, (pq.set k p).queue.countP (fun e => e.1 = k') ≤ 1) ∧
    (pq.set k p).get k = some (k, p) ∧
    (pq.has k = true → (pq.set k p).queue.length = pq.queue.length) := by
  refine ⟨PQ.set_wf hwf k p, ?_, PQ.get_set_self hwf k p,
    fun hc => PQ.set_length_of_has hc p⟩
  intro k'
  exact countP_le_one_of_nodup_keys _ k' (PQ.set_wf hwf k p).2.1

/-- C5 witness: overwriting the priority of `A` in a two-entry frontier
keeps it well-formed and returns the new priority. -/
theorem C5_witness :
    (⟨["A", "B"], [("A", 1), ("B", 2)]⟩ : PQ).wf ∧
    ((⟨["A", "B"], [("A", 1), ("B", 2)]⟩ : PQ).set "A" 5).get "A"
      = some ("A", 5) :=
  ⟨by decide,
    (C5_frontier_one_entry_per_key ⟨["A", "B"], [("A", 1), ("B", 2)]⟩
      "A" 5 (by decide)).2.2.1⟩

/-- C6 counterexample: `null` is not a number, yet
`addNode("A", {B: null})` succeeds — JS `Number(null)` is `0`, which
passes validation — so a non-numeric cost does not make `addNode`
fail. -/
theorem C6_counterexample :
    addNode [] "A" [("B", JSVal.nullv)]
      = .ok [("A", [("B", MVal.cost 0)])] := rfl

/-- C6 amended: `addNode` fails with the `InvalidCost` `TypeError` —
which propagates before `this.graph.set`, leaving the graph exactly as
before — whenever the neighbours contain, at any nesting depth, a cost
that is negative or whose JS `Number` coercion is `NaN`; non-numeric
values that coerce to a non-negative number (such as `null`) are
accepted instead. -/
theorem C6_addNode_invalid_cost (g : GraphM) (name : String)
    (neighbors : List (String × JSVal))
    (hbad : hasBadLeafL neighbors = true) :
    ∃ e, addNode g name neighbors = .error e := by
  obtain ⟨e, he⟩ := populateMapAux_error_of_bad neighbors [] hbad
  refine ⟨e, ?_⟩
  unfold addNode populateMap
  rw [he]

/-- C6 witness: a directly negative cost makes `addNode` fail. -/
theorem C6_witness :
    hasBadLeafL [("B", JSVal.num (-1))] = true ∧
    ∃ e, addNode [] "A" [("B", JSVal.num (-1))] = .error e :=
  ⟨by decide,
    C6_addNode_invalid_cost [] "A" [("B", JSVal.num (-1))] (by decide)⟩

/-- C7: for every graph, start, goal and remaining options, the
`reverse=true` result is exactly the `reverse=false` result with its
node sequence reversed (inside the `{path, cost}` record when the cost
option is set). -/
theorem C7_reverse_exact (g : GraphL) (s t : String) (trim cost : Bool) :
    path g s t ⟨trim, true, cost⟩
      = (path g s t ⟨trim, false, cost⟩).reversePath := by
  unfold path
  by_cases hge : g.isEmpty
  · simp only [if_pos hge]
    cases cost <;> rfl
  · simp only [if_neg hge]
    rcases hrs : runSearch g s t with _ | ⟨raw, c₀⟩
    · cases cost <;> rfl
    · cases cost <;> cases trim <;>
        simp [JSResult.reversePath, List.reverse_reverse]

/-- C8 counterexample: a numeric `options` argument — present but not a
configuration object — does not make the call fail: the query runs
normally and returns the path.  No `InvalidOptions` error exists
anywhere in the code. -/
theorem C8_counterexample :
    pathRaw exampleGraph "A" "B" (OptArg.num 42) = .seq ["A", "B"] := by
  decide

/-- C8 amended: `path` never fails on a malformed `options` argument:
`options = options || {}` coerces any non-object value — falsy values
become `{}`, and a number exposes none of the three flags — so the call
behaves exactly like a call with empty options. -/
theorem C8_no_invalid_options (g : GraphL) (s t : String) (a : OptArg)
    (hna : ∀ o : Opts, a ≠ OptArg.obj o) :
    pathRaw g s t a = path g s t ⟨false, false, false⟩ := by
  cases a with
  | undef => rfl
  | nullv => rfl
  | num n => rfl
  | obj o => exact absurd rfl (hna o)

/-- C8 witness: the amended behaviour at the numeric argument `42`. -/
theorem C8_witness :
    (∀ o : Opts, OptArg.num 42 ≠ OptArg.obj o) ∧
    pathRaw exampleGraph "A" "B" (OptArg.num 42)
      = path exampleGraph "A" "B" ⟨false, false, false⟩ :=
  ⟨fun o h => OptArg.noConfusion h,
    C8_no_invalid_options exampleGraph "A" "B" (OptArg.num 42)
      (fun o h => OptArg.noConfusion h)⟩

/-- C9: every path query terminates: with the fuel `path` supplies (one
more than the number of distinct node names), the relaxation loop never
reaches the artificial out-of-fuel state — each iteration dequeues a
node not yet explored, marks it explored, and explored nodes are never
re-inserted into the frontier, so the loop ends by extracting the goal
or exhausting the frontier. -/
theorem C9_loop_terminates (g : GraphL) (s t : String) :
    dloop g t (pathFuel g s) (initPQ s) [] [] ≠ .fuelOut := by
  apply dloop_no_fuelOut g s t (pathFuel g s) (initPQ s) [] [] (SInv_init g s)
  have hfu : pathFuel g s = (univList g s).dedup.length + 1 := rfl
  have hcard : ((univList g s).toFinset \ ([] : List String).toFinset).card
      = (univList g s).dedup.length := by
    simp [List.card_toFinset]
  rw [hfu, hcard]
  omega

/-- C10: the deprecated alias `shortestPath` forwards its arguments to
`path` unchanged and returns exactly its result; its only other effect
is a console deprecation notice, which does not touch the graph (the
graph is untouched by both: they are pure functions of it). -/
theorem C10_shortestPath_alias (g : GraphL) (s t : String) (o : Opts) :
    shortestPath g s t o = path g s t o := rfl

end Dijkstra
